import Mathlib

/-!
Verification of the gogrep structural search tool (`main.go`) against its
natural-language specification.

The repository's `src/` holds `main.go` only; `parse.go`, `match.go` and
`load.go` of the same package are not available, so the tokenizer, the
general parser, the unification engine and the corpus loader are modelled
from the specification where needed.  Everything defined from `main.go`
mirrors the Go source directly.
-/

set_option autoImplicit false

namespace Gogrep

/-! ## Data model: syntax trees and wildcard table -/

/-- Modelled from the spec: corpus and pattern trees as a closed
tagged-variant type (spec section 9).  `wild id` is a wildcard occurrence
carrying its integer id; `node kind children` is a generic interior node;
`seq` is the synthetic `NodeSequence` used as a matching target. -/
inductive Node where
  | ident (name : String)
  | node (kind : String) (children : List Node)
  | seq (elems : List Node)
  | wild (id : Int)

mutual

/-- Structural equality on trees is decidable (hand-rolled because the
nested `List Node` defeats the deriving handler). -/
def decEqNode : (a b : Node) → Decidable (a = b)
  | .ident a, .ident b =>
    match decEq a b with
    | isTrue h => isTrue (by rw [h])
    | isFalse h => isFalse (by intro he; injection he; contradiction)
  | .ident _, .node _ _ => isFalse (by intro h; exact Node.noConfusion h)
  | .ident _, .seq _ => isFalse (by intro h; exact Node.noConfusion h)
  | .ident _, .wild _ => isFalse (by intro h; exact Node.noConfusion h)
  | .node _ _, .ident _ => isFalse (by intro h; exact Node.noConfusion h)
  | .node k1 c1, .node k2 c2 =>
    match decEq k1 k2, decEqNodeList c1 c2 with
    | isTrue h1, isTrue h2 => isTrue (by rw [h1, h2])
    | isFalse h1, _ => isFalse (by intro he; injection he; contradiction)
    | _, isFalse h2 => isFalse (by intro he; injection he; contradiction)
  | .node _ _, .seq _ => isFalse (by intro h; exact Node.noConfusion h)
  | .node _ _, .wild _ => isFalse (by intro h; exact Node.noConfusion h)
  | .seq _, .ident _ => isFalse (by intro h; exact Node.noConfusion h)
  | .seq _, .node _ _ => isFalse (by intro h; exact Node.noConfusion h)
  | .seq a, .seq b =>
    match decEqNodeList a b with
    | isTrue h => isTrue (by rw [h])
    | isFalse h => isFalse (by intro he; injection he; contradiction)
  | .seq _, .wild _ => isFalse (by intro h; exact Node.noConfusion h)
  | .wild _, .ident _ => isFalse (by intro h; exact Node.noConfusion h)
  | .wild _, .node _ _ => isFalse (by intro h; exact Node.noConfusion h)
  | .wild _, .seq _ => isFalse (by intro h; exact Node.noConfusion h)
  | .wild i, .wild j =>
    match decEq i j with
    | isTrue h => isTrue (by rw [h])
    | isFalse h => isFalse (by intro he; injection he; contradiction)

/-- Decidable equality on lists of trees. -/
def decEqNodeList : (as bs : List Node) → Decidable (as = bs)
  | [], [] => isTrue rfl
  | [], _ :: _ => isFalse (by intro h; exact List.noConfusion h)
  | _ :: _, [] => isFalse (by intro h; exact List.noConfusion h)
  | a :: as, b :: bs =>
    match decEqNode a b, decEqNodeList as bs with
    | isTrue h1, isTrue h2 => isTrue (by rw [h1, h2])
    | isFalse h1, _ => isFalse (by intro he; injection he; contradiction)
    | _, isFalse h2 => isFalse (by intro he; injection he; contradiction)

end

instance : DecidableEq Node := decEqNode

/-- The wildcard table entry, mirrored from `varInfo` in `main.go`:
a name, an any-count flag, and an optional identifier-name regex.
The zero value (Go `varInfo{}`) is the default: empty name, no flags,
no regex. -/
structure varInfo where
  name : String := ""
  any : Bool := false
  nameRx : Option String := none
deriving DecidableEq

/-- Mirrors `matcher.info` from `main.go`: negative ids yield the zero
`varInfo`; in-range ids index the wildcard table; an out-of-range
non-negative id panics in Go, modelled here as `none`. -/
def info (vars : List varInfo) (id : Int) : Option varInfo :=
  if id < 0 then some {} else vars[id.toNat]?

/-! ## Matching (modelled from the spec; `match.go` is not in `src/`) -/

/-- Matching configuration: the wildcard table, the aggressive flag, and
the external regex engine (Go's `regexp` package, modelled as an opaque
boolean predicate supplied by the caller). -/
structure MatchCfg where
  vars : List varInfo
  aggressive : Bool := false
  rxMatch : String → String → Bool

/-- Association-list lookup for wildcard bindings by name. -/
def lookupB : List (String × Node) → String → Option Node
  | [], _ => none
  | (n, v) :: rest, m => if m = n then some v else lookupB rest m

/-- Modelled from the spec: the per-attempt `MatchState` is the map from
wildcard name (excluding `_`) to the bound subtree.  `trace` is a ghost
field recording every (name, candidate) pair unified at a named wildcard,
used to state the name-consistency property. -/
structure MatchState where
  values : List (String × Node) := []
  trace : List (String × Node) := []
deriving DecidableEq

/-- The fresh match state each unification attempt starts from. -/
def emptyState : MatchState := {}

/-- Modelled from the spec (section 4.3, rules 1 and 2): unify a
single-node wildcard with a candidate.  `_` succeeds without binding; a
named wildcard with an existing binding requires recursive structural
equality with the candidate; a first occurrence checks the optional regex
constraint (the candidate must then be an identifier) and binds. -/
def unifyWild (cfg : MatchCfg) (id : Int) (c : Node) (st : MatchState) :
    Option MatchState :=
  match info cfg.vars id with
  | none => none
  | some vi =>
    if vi.name = "_" then some st
    else
      match lookupB st.values vi.name with
      | some v =>
        if v = c then some { st with trace := (vi.name, c) :: st.trace }
        else none
      | none =>
        match vi.nameRx with
        | none =>
          some { values := (vi.name, c) :: st.values,
                 trace := (vi.name, c) :: st.trace }
        | some rx =>
          match c with
          | Node.ident s =>
            if cfg.rxMatch rx s then
              some { values := (vi.name, c) :: st.values,
                     trace := (vi.name, c) :: st.trace }
            else none
          | _ => none

/-- Whether a pattern node is an any-count wildcard (`$*name`). -/
def isAnyWild (cfg : MatchCfg) : Node → Bool
  | Node.wild id =>
    match info cfg.vars id with
    | some vi => vi.any
    | none => false
  | _ => false

/-- All splits of a list into a prefix and a suffix, shortest prefix
first (the leftmost-greedy tie-break of spec section 4.3 rule 3: an
any-count wildcard takes the minimal run first and backtracks by
consuming one more element). -/
def splits : List Node → List (List Node × List Node)
  | [] => [([], [])]
  | c :: cs => ([], c :: cs) :: (splits cs).map (fun pr => (c :: pr.1, pr.2))

mutual

/-- Modelled from the spec (section 4.3): structural unification of a
pattern node against a candidate node, threading the match state.  Fuel
makes the recursion structurally terminating; every recursive call
decrements it. -/
def unify (cfg : MatchCfg) : Nat → Node → Node → MatchState → Option MatchState
  | 0, _, _, _ => none
  | Nat.succ f, p, c, st =>
    match p with
    | Node.wild id => unifyWild cfg id c st
    | Node.ident s =>
      match c with
      | Node.ident s2 => if s = s2 then some st else none
      | _ => none
    | Node.node k ps =>
      match c with
      | Node.node k2 cs => if k = k2 then unifyList cfg f ps cs st else none
      | _ => none
    | Node.seq ps =>
      match c with
      | Node.seq cs => unifyList cfg f ps cs st
      | _ => none

/-- Modelled from the spec: unification of sibling sequences, with
any-count wildcards consuming contiguous, possibly empty runs. -/
def unifyList (cfg : MatchCfg) : Nat → List Node → List Node → MatchState →
    Option MatchState
  | 0, _, _, _ => none
  | Nat.succ f, ps, cs, st =>
    match ps with
    | [] => match cs with | [] => some st | _ :: _ => none
    | p :: ps2 =>
      if isAnyWild cfg p then
        match p with
        | Node.wild id => trySplits cfg f id ps2 (splits cs) st
        | _ => none
      else
        match cs with
        | [] => none
        | c :: cs2 =>
          match unify cfg f p c st with
          | some st2 => unifyList cfg f ps2 cs2 st2
          | none => none

/-- Modelled from the spec: try each prefix/suffix split in order for an
any-count wildcard, binding the wildcard to the consumed run and
backtracking on failure of the remainder. -/
def trySplits (cfg : MatchCfg) : Nat → Int → List Node →
    List (List Node × List Node) → MatchState → Option MatchState
  | 0, _, _, _, _ => none
  | Nat.succ f, id, ps, sps, st =>
    match sps with
    | [] => none
    | (pre, suf) :: rest =>
      match unifyWild cfg id (Node.seq pre) st with
      | some st1 =>
        match unifyList cfg f ps suf st1 with
        | some st2 => some st2
        | none => trySplits cfg f id ps rest st
      | none => trySplits cfg f id ps rest st

end

mutual

/-- Modelled from the spec (section 4.3 traversal): all match candidates
of a corpus tree in pre-order; every child list is additionally offered
once as a whole `NodeSequence`. -/
def candidates : Node → List Node
  | Node.node k cs => Node.node k cs :: Node.seq cs :: candidatesList cs
  | Node.seq cs => Node.seq cs :: candidatesList cs
  | n => [n]

/-- Candidates of each element of a node list, concatenated. -/
def candidatesList : List Node → List Node
  | [] => []
  | c :: cs => candidates c ++ candidatesList cs

end

/-- Modelled from the spec: `search(pattern, corpus)` collects every
candidate whose unification attempt from a fresh empty `MatchState`
succeeds. -/
def matchesOf (cfg : MatchCfg) (f : Nat) (pat corpus : Node) : List Node :=
  (candidates corpus).filter (fun c => (unify cfg f pat c emptyState).isSome)

/-! ## The position-tracking buffer (`lineColBuffer` in `main.go`) -/

/-- Mirrors Go's `lineColBuffer`: an output buffer plus the line, column
and rune offset of the write position.  Go `int` is modelled as `Int`
(the `offs` field is decremented by `addOffset` below and may in
principle go negative). -/
structure LCB where
  buf : String := ""
  line : Int := 1
  col : Int := 1
  offs : Int := 0
deriving DecidableEq

/-- One rune of `lineColBuffer.WriteString`: a newline bumps the line and
resets the column to 1, any other rune bumps the column; the offset
always advances by one. -/
def lcbStep (l : LCB) (r : Char) : LCB :=
  if r = '\n' then { l with line := l.line + 1, col := 1, offs := l.offs + 1 }
  else { l with col := l.col + 1, offs := l.offs + 1 }

/-- Mirrors `lineColBuffer.WriteString` from `main.go`: update the
position per rune, then append the string to the underlying buffer. -/
def writeStr (l : LCB) (s : String) : LCB :=
  let l2 := s.data.foldl lcbStep l
  { l2 with buf := l.buf ++ s }

/-! ## Pattern compilation (`compileExpr` in `main.go`) -/

/-- Boolean prefix test on lists (used for the wildcard-name check). -/
def listHasPref : List Char → List Char → Bool
  | [], _ => true
  | _ :: _, [] => false
  | p :: ps, c :: cs => p = c && listHasPref ps cs

/-- Prefix test on strings (`strings.HasPrefix`), on the underlying
character data. -/
def strStarts (s pre : String) : Bool := listHasPref pre.data s.data

/-- White-space class of `strings.TrimSpace` (the ASCII part). -/
def isSpaceChar (c : Char) : Bool :=
  decide (c = ' ' ∨ c = '\t' ∨ c = '\n' ∨ c = '\r')

/-- Trim white space from both ends of a character list. -/
def trimChars (cs : List Char) : List Char :=
  ((cs.dropWhile isSpaceChar).reverse.dropWhile isSpaceChar).reverse

/-- Mirrors `strings.TrimSpace` on the underlying character data. -/
def strTrim (s : String) : String := String.mk (trimChars s.data)

/-- Modelled from the spec: the reserved identifier prefix used by the
wildcard-to-identifier encoding (`parse.go` is not in `src/`; the spec
calls it the reserved prefix that can never collide with a user
identifier). -/
def wildPrefix : String := "gogrep_"

/-- The extra synthetic length inserted by one wildcard substitution,
`len(wildPrefix) - 1` in `compileExpr`. -/
def wildExtra : Int := Int.ofNat wildPrefix.length - 1

/-- Modelled from the spec: a literal is an encoded wildcard identifier
when it starts with the reserved prefix. -/
def isWildName (s : String) : Bool := listHasPref wildPrefix.data s.data

/-- A token of the rewritten pattern stream, as consumed by
`compileExpr`: whether it is the aggressive-mode marker, the rendering of
its kind (`t.tok.String()`), its literal text, and its byte offset in the
original pattern (`t.pos.Offset`). -/
structure Tok where
  isAggr : Bool := false
  tokStr : String := ""
  lit : String := ""
  pos : Int := 0

/-- Mirrors `posOffset` recorded by `compileExpr`'s `addOffset`: the
point (in synthesized coordinates) at which synthetic length `offset`
was inserted. -/
structure posOffset where
  atLine : Int
  atCol : Int
  offset : Int
deriving DecidableEq

/-- The state threaded through `compileExpr`'s token loop: the
`lineColBuffer`, the recorded position offsets, and the `lastLit` flag. -/
structure CompState where
  lbuf : LCB := {}
  offs : List posOffset := []
  lastLit : Bool := false
deriving DecidableEq

/-- Mirrors `addOffset` in `compileExpr`: rewind the buffer offset by
`length` and record a `posOffset` at the current line/column. -/
def addOffset (s : CompState) (length : Int) : CompState :=
  { s with lbuf := { s.lbuf with offs := s.lbuf.offs - length },
           offs := s.offs ++ [⟨s.lbuf.line, s.lbuf.col, length⟩] }

/-- A run of spaces (the `for lbuf.offs < t.pos.Offset` padding loop
writes them one at a time; writing them in one string is equivalent for
every field of the buffer). -/
def mkSpaces (n : Nat) : String := String.mk (List.replicate n ' ')

/-- The two space-padding writes at the head of `compileExpr`'s token
loop: the separator space between adjacent literals, and the `for
lbuf.offs < t.pos.Offset` padding loop (whose one-space-at-a-time writes
are equivalent to one write of the same run of spaces). -/
def padStep (s : CompState) (t : Tok) : CompState :=
  let s1 :=
    if s.lbuf.offs ≥ t.pos ∧ s.lastLit ∧ t.lit ≠ "" then
      { s with lbuf := writeStr s.lbuf " " }
    else s
  if s1.lbuf.offs < t.pos then
    { s1 with lbuf := writeStr s1.lbuf (mkSpaces (t.pos - s1.lbuf.offs).toNat) }
  else s1

/-- Mirrors one iteration of `compileExpr`'s token loop in `main.go`:
separator space, padding up to the token's offset, then either the token
kind's rendering (empty literal) or the literal itself, preceded for
wildcard names by an `addOffset` of the extra synthetic length. -/
def compileStep (s0 : CompState) (t : Tok) : CompState :=
  let s := padStep s0 t
  if t.lit = "" then
    { s with lbuf := writeStr s.lbuf t.tokStr, lastLit := false }
  else
    let s2 := if isWildName t.lit then addOffset s wildExtra else s
    { s2 with lbuf := writeStr s2.lbuf t.lit,
              lastLit := strTrim t.lit ≠ "" }

/-- An error position reported by the general parser (line and column of
a `scanner.Error`). -/
structure ErrPos where
  line : Int
  col : Int
deriving DecidableEq

/-- Modelled from the spec: `subPosOffsets` (in the missing `parse.go`)
corrects a parser-reported position by subtracting, for every recorded
offset at the same line whose column is not past the reported column,
the synthetic length inserted there. -/
def subPosOffsets (e : ErrPos) (offs : List posOffset) : ErrPos :=
  offs.foldl
    (fun e o =>
      if e.line = o.atLine ∧ o.atCol ≤ e.col then { e with col := e.col - o.offset }
      else e)
    e

/-- The token stream actually fed to the synthesis loop: `compileExpr`
strips a leading aggressive-mode marker (and only a leading one). -/
def effToks : List Tok → List Tok
  | [] => []
  | t :: rest => if t.isAggr then rest else t :: rest

/-- Whether `compileExpr` enables aggressive mode: true exactly when the
very first token is the marker. -/
def aggrOf : List Tok → Bool
  | [] => false
  | t :: _ => t.isAggr

/-- The final loop state of `compileExpr`'s synthesis over a (stripped)
token stream, starting from a fresh `lineColBuffer` at line 1, column 1. -/
def synthState (toks : List Tok) : CompState :=
  toks.foldl compileStep {}

/-- The synthesized pattern text, trimmed as in `compileExpr`. -/
def synthText (toks : List Tok) : String :=
  strTrim (synthState toks).lbuf.buf

/-- What `compileExpr` returns, together with the intermediate data the
specification talks about: the parse result (with corrected error
position), the synthesized text, the recorded offsets, and the
aggressive flag. -/
structure CompileOut where
  result : Except ErrPos Node
  text : String
  offsets : List posOffset
  aggressive : Bool

/-- Mirrors `compileExpr` from `main.go` over a tokenized pattern: strip
a leading aggressive marker, synthesize the encoded pattern text while
recording position offsets, hand the text to the general parser
(supplied as `parseFn`, since `parse.go` is not in `src/`), and on
failure correct the reported position via `subPosOffsets`. -/
def compileExpr (parseFn : String → Except ErrPos Node) (toks0 : List Tok) :
    CompileOut :=
  match parseFn (synthText (effToks toks0)) with
  | Except.ok n =>
    { result := Except.ok n, text := synthText (effToks toks0),
      offsets := (synthState (effToks toks0)).offs,
      aggressive := aggrOf toks0 }
  | Except.error e =>
    { result := Except.error (subPosOffsets e (synthState (effToks toks0)).offs),
      text := synthText (effToks toks0),
      offsets := (synthState (effToks toks0)).offs,
      aggressive := aggrOf toks0 }

/-! ## CLI argument handling (`fromArgs` and `main` in `main.go`) -/

/-- Mirrors `flagPair` from `main.go`: an occurrence of a command flag
with its value. -/
structure flagPair where
  name : String
  val : String
deriving DecidableEq

/-- Modelled from the spec: the behavior of Go's standard `flag` package
(an external library) on the flag set registered in `fromArgs` — a
boolean `-r` and an ordered, repeatable `-x`.  Scanning stops at `--` or
at the first argument that is not a flag; an unknown flag or a missing
`-x` value is a parse error (which `flag.ExitOnError` turns into exit
status 2). -/
def parseFlagsAux (r : Bool) (fl : List flagPair) :
    List String → Except String (Bool × List flagPair × List String)
  | [] => Except.ok (r, fl, [])
  | a :: rest =>
    if a = "--" then Except.ok (r, fl, rest)
    else if strStarts a "-" = false ∨ a = "-" then Except.ok (r, fl, a :: rest)
    else if a = "-r" then parseFlagsAux true fl rest
    else if a = "-r=true" then parseFlagsAux true fl rest
    else if a = "-r=false" then parseFlagsAux false fl rest
    else if a = "-x" then
      match rest with
      | v :: rest2 => parseFlagsAux r (fl ++ [⟨"x", v⟩]) rest2
      | [] => Except.error "flag needs an argument: -x"
    else if strStarts a "-x=" then parseFlagsAux r (fl ++ [⟨"x", a.drop 3⟩]) rest
    else Except.error "flag provided but not defined"

/-- Flag parsing over a full argument list, from a fresh flag set. -/
def parseFlags (args : List String) :
    Except String (Bool × List flagPair × List String) :=
  parseFlagsAux false [] args

/-- Mirrors `fromArgs` lines 132-135 of `main.go`: when no command flag
was given and a positional argument is present, the first positional
argument becomes the `-x` pattern and the rest remain as paths. -/
def resolveArgs : List flagPair → List String → List flagPair × List String
  | [], p :: ps => ([⟨"x", p⟩], ps)
  | fl, ps => (fl, ps)

/-- Mirrors the body of `fromArgs` after flag parsing: promote a leading
positional argument, reject zero or multiple commands, then compile the
pattern, load the corpus (both external stages supplied as functions:
the tokenizer/parser and the loader are not in `src/`), and search every
loaded tree.  The match list is the payload of a successful run. -/
def fromArgsCore (cfg : MatchCfg) (fuel : Nat)
    (compileFn : String → Except String Node)
    (loadFn : List String → Bool → Except String (List Node))
    (recurse : Bool) (flags0 : List flagPair) (paths0 : List String) :
    Except String (List Node) :=
  let fp := resolveArgs flags0 paths0
  if fp.1.length < 1 then Except.error "need at least one command"
  else if fp.1.length > 1 then Except.error "TODO: command composability"
  else
    match fp.1 with
    | [] => Except.error "need at least one command"
    | f :: _ =>
      match compileFn f.val with
      | Except.error e => Except.error e
      | Except.ok pat =>
        match loadFn fp.2 recurse with
        | Except.error e => Except.error e
        | Except.ok nodes =>
          Except.ok ((nodes.map (fun n => matchesOf cfg fuel pat n)).flatten)

/-- Mirrors `main` in `main.go` plus `flag.ExitOnError`: a flag-parse
error exits with status 2 (inside the flag package), any error returned
by `fromArgs` is printed and exits with status 1, and a completed run
exits with status 0 whatever the number of matches. -/
def mainExitCode (cfg : MatchCfg) (fuel : Nat)
    (compileFn : String → Except String Node)
    (loadFn : List String → Bool → Except String (List Node))
    (args : List String) : Nat :=
  match parseFlags args with
  | Except.error _ => 2
  | Except.ok (r, fl, ps) =>
    match fromArgsCore cfg fuel compileFn loadFn r fl ps with
    | Except.error _ => 1
    | Except.ok _ => 0

/-! ## Match output (`fromArgs` print loop and `singleLinePrint`) -/

/-- Decimal rendering of a number as characters. -/
def natChars (n : Nat) : List Char := (Nat.repr n).data

/-- A resolved source position of a match (`token.Position`): Go strings
are modelled as character lists throughout the printing layer. -/
structure FilePos where
  filename : List Char
  line : Nat
  col : Nat

/-- Modelled from the spec: the `%v` rendering of a `token.Position`
(external `go/token` package): `file:line:col`, the column omitted when
zero, the whole falling back to `-` when nothing is printable. -/
def posString (p : FilePos) : List Char :=
  let s := p.filename
  let s :=
    if 0 < p.line then
      (if s ≠ [] then s ++ [':'] else s) ++ natChars p.line ++
        (if p.col ≠ 0 then ':' :: natChars p.col else [])
    else s
  if s = [] then ['-'] else s

/-- Mirrors the path relativization in `fromArgs`: a filename that has
the working directory as a prefix is sliced past the separator. -/
def relFilename (wd fn : List Char) : List Char :=
  if listHasPref wd fn then fn.drop (wd.length + 1) else fn

/-- Mirrors the `fmt.Fprintf(m.out, "%v: %s\n", fpos, ...)` line of
`fromArgs`: the relativized position, a colon and space, the single-line
rendering, and a newline. -/
def outputLine (wd : List Char) (p : FilePos) (rendering : List Char) :
    List Char :=
  posString { p with filename := relFilename wd p.filename } ++
    [':', ' '] ++ rendering ++ ['\n']

/-- The print loop of `fromArgs`: one output line per match, in order. -/
def printMatches (wd : List Char) (ms : List (FilePos × List Char)) :
    List (List Char) :=
  ms.map (fun m => outputLine wd m.1 m.2)

/-- Membership of the last character of `s` in the character class of
`rxNeedSemicolon` (brackets, letters, digits, quotes; codes are used for
the bracket and quote characters). -/
def semiChar (c : Char) : Bool :=
  let n := c.toNat
  decide (n = 93 ∨ n = 41 ∨ n = 125 ∨ n = 34 ∨ n = 39 ∨ n = 96 ∨
    (97 ≤ n ∧ n ≤ 122) ∨ (65 ≤ n ∧ n ≤ 90) ∨ (48 ≤ n ∧ n ≤ 57))

/-- Mirrors `rxNeedSemicolon.MatchString` on the buffered last chunk:
the chunk ends in a closing bracket, letter, digit, quote, `++` or
`--`. -/
def needSemi (s : List Char) : Bool :=
  match s.reverse with
  | [] => false
  | c :: rest =>
    semiChar c ||
      (match rest with
       | c2 :: _ => (c == '+' && c2 == '+') || (c == '-' && c2 == '-')
       | [] => false)

/-- Drop tab characters from both ends (`bytes.Trim(p, "\t")`). -/
def trimTabs (p : List Char) : List Char :=
  ((p.dropWhile (fun c => c == '\t')).reverse.dropWhile
      (fun c => c == '\t')).reverse

/-- Mirrors `bufferJoinLines.Write`: a lone newline chunk becomes a
semicolon (when the last chunk needs one) and a space; any other chunk
is tab-trimmed, appended, and remembered as the last chunk. -/
def bjlWrite (b : List Char × List Char) (p : List Char) :
    List Char × List Char :=
  if p = ['\n'] then
    (b.1 ++ (if needSemi b.2 then [';'] else []) ++ [' '], b.2)
  else
    let q := trimTabs p
    (b.1 ++ q, q)

/-- Mirrors `singleLinePrint`: fold the printer's chunk stream (the
`go/printer` rendering is external and supplies the chunks) through the
joining buffer and read off the result. -/
def joinLines (chunks : List (List Char)) : List Char :=
  (chunks.foldl bjlWrite ([], [])).1

/-! ## Derived notions used by the statements -/

/-- Bindings only grow during unification: whatever a name was bound to
before the step, it is bound to the same node after it. -/
def Mono (st st2 : MatchState) : Prop :=
  ∀ n v, lookupB st.values n = some v → lookupB st2.values n = some v

/-- Every traced wildcard occurrence agrees with the current binding of
its name. -/
def TraceOK (st : MatchState) : Prop :=
  ∀ n c, (n, c) ∈ st.trace → lookupB st.values n = some c

/-- Total synthetic length recorded in a list of position offsets. -/
def sumOffsets (offs : List posOffset) : Int :=
  offs.foldl (fun a o => a + o.offset) 0

/-- Every recorded offset lies at the reported line, at or before the
progressively corrected column — i.e. all the recorded substitutions sit
before the reported error position. -/
def allApply (line col : Int) : List posOffset → Bool
  | [] => true
  | o :: os =>
    decide (o.atLine = line) && decide (o.atCol ≤ col) &&
      allApply line (col - o.offset) os

/-- Wildcard table for the worked examples of the specification:
id 0 is `$x`, id 1 is `$_`. -/
def exCfg : MatchCfg :=
  { vars := [{ name := "x" }, { name := "_" }], rxMatch := fun _ _ => false }

/-- The compiled form of the pattern `$x.$_ = $x`. -/
def exPat : Node :=
  Node.node "assign" [Node.node "selector" [Node.wild 0, Node.wild 1], Node.wild 0]

/-- The candidate `a.b = a`. -/
def exCand1 : Node :=
  Node.node "assign"
    [Node.node "selector" [Node.ident "a", Node.ident "b"], Node.ident "a"]

/-- The candidate `a.b = c`. -/
def exCand2 : Node :=
  Node.node "assign"
    [Node.node "selector" [Node.ident "a", Node.ident "b"], Node.ident "c"]

/-- The compiled form of a pattern with two `$_` occurrences. -/
def exPat2 : Node := Node.node "binary" [Node.wild 1, Node.wild 1]

/-- A candidate with two different subtrees at the `$_` positions. -/
def exCand3 : Node := Node.node "binary" [Node.ident "a", Node.ident "b"]

/-! ## Name consistency of unification (claim C1) -/

theorem lookupB_cons (m : String) (u : Node) (rest : List (String × Node))
    (n : String) :
    lookupB ((m, u) :: rest) n = if n = m then some u else lookupB rest n := rfl

theorem Mono_refl (st : MatchState) : Mono st st := fun _ _ h => h

theorem Mono_trans {a b c : MatchState} (h1 : Mono a b) (h2 : Mono b c) :
    Mono a c := fun n v h => h2 n v (h1 n v h)

theorem bindStep_inv (st : MatchState) (nm : String) (c : Node)
    (hlook : lookupB st.values nm = none) :
    Mono st { values := (nm, c) :: st.values, trace := (nm, c) :: st.trace } ∧
      (TraceOK st →
        TraceOK { values := (nm, c) :: st.values, trace := (nm, c) :: st.trace }) := by
  have hne : ∀ n v, lookupB st.values n = some v → n ≠ nm := by
    intro n v hv he
    rw [he, hlook] at hv
    exact Option.noConfusion hv
  constructor
  · intro n v hv
    rw [lookupB_cons, if_neg (hne n v hv)]
    exact hv
  · intro ht n cc hc
    rcases List.mem_cons.mp hc with he | hm
    · have h1 : n = nm := congrArg Prod.fst he
      have h2 : cc = c := congrArg Prod.snd he
      subst h1; subst h2
      simp [lookupB_cons]
    · have hv := ht n cc hm
      rw [lookupB_cons, if_neg (hne n cc hv)]
      exact hv

theorem traceStep_inv (st : MatchState) (nm : String) (c : Node)
    (hlook : lookupB st.values nm = some c) :
    Mono st { st with trace := (nm, c) :: st.trace } ∧
      (TraceOK st → TraceOK { st with trace := (nm, c) :: st.trace }) := by
  constructor
  · intro n v hv; exact hv
  · intro ht n cc hc
    rcases List.mem_cons.mp hc with he | hm
    · have h1 : n = nm := congrArg Prod.fst he
      have h2 : cc = c := congrArg Prod.snd he
      subst h1; subst h2
      exact hlook
    · exact ht n cc hm

theorem unifyWild_inv (cfg : MatchCfg) (id : Int) (c : Node) (st st2 : MatchState)
    (h : unifyWild cfg id c st = some st2) :
    Mono st st2 ∧ (TraceOK st → TraceOK st2) := by
  unfold unifyWild at h
  cases hinfo : info cfg.vars id with
  | none => rw [hinfo] at h; exact Option.noConfusion h
  | some vi =>
    rw [hinfo] at h
    dsimp only at h
    by_cases hname : vi.name = "_"
    · rw [if_pos hname] at h
      injection h with h2
      subst h2
      exact ⟨Mono_refl st, fun t => t⟩
    · rw [if_neg hname] at h
      cases hlook : lookupB st.values vi.name with
      | some v =>
        rw [hlook] at h
        dsimp only at h
        by_cases hvc : v = c
        · rw [if_pos hvc] at h
          injection h with h2
          subst h2
          subst hvc
          exact traceStep_inv st vi.name v hlook
        · rw [if_neg hvc] at h
          exact Option.noConfusion h
      | none =>
        rw [hlook] at h
        dsimp only at h
        cases hrx : vi.nameRx with
        | none =>
          rw [hrx] at h
          dsimp only at h
          injection h with h2
          subst h2
          exact bindStep_inv st vi.name c hlook
        | some rx =>
          rw [hrx] at h
          dsimp only at h
          cases c with
          | ident s =>
            dsimp only at h
            by_cases hm : cfg.rxMatch rx s = true
            · rw [if_pos hm] at h
              injection h with h2
              subst h2
              exact bindStep_inv st vi.name (Node.ident s) hlook
            · rw [if_neg hm] at h
              exact Option.noConfusion h
          | node k cs => exact Option.noConfusion h
          | seq cs => exact Option.noConfusion h
          | wild i => exact Option.noConfusion h

theorem unify_inv_all (cfg : MatchCfg) : ∀ f : Nat,
    (∀ p c st st2, unify cfg f p c st = some st2 →
      Mono st st2 ∧ (TraceOK st → TraceOK st2)) ∧
    (∀ ps cs st st2, unifyList cfg f ps cs st = some st2 →
      Mono st st2 ∧ (TraceOK st → TraceOK st2)) ∧
    (∀ id ps sps st st2, trySplits cfg f id ps sps st = some st2 →
      Mono st st2 ∧ (TraceOK st → TraceOK st2)) := by
  intro f
  induction f with
  | zero =>
    refine ⟨?_, ?_, ?_⟩
    · intro p c st st2 h
      exact Option.noConfusion h
    · intro ps cs st st2 h
      exact Option.noConfusion h
    · intro id ps sps st st2 h
      exact Option.noConfusion h
  | succ f ih =>
    obtain ⟨ihU, ihL, ihS⟩ := ih
    refine ⟨?_, ?_, ?_⟩
    · intro p c st st2 h
      cases p with
      | wild id =>
        exact unifyWild_inv cfg id c st st2 h
      | ident s =>
        cases c with
        | ident s2 =>
          simp only [unify] at h
          by_cases hs : s = s2
          · rw [if_pos hs] at h
            injection h with h2
            subst h2
            exact ⟨Mono_refl st, fun t => t⟩
          · rw [if_neg hs] at h
            exact Option.noConfusion h
        | node k cs => exact Option.noConfusion h
        | seq cs => exact Option.noConfusion h
        | wild i => exact Option.noConfusion h
      | node k ps =>
        cases c with
        | node k2 cs =>
          simp only [unify] at h
          by_cases hk : k = k2
          · rw [if_pos hk] at h
            exact ihL ps cs st st2 h
          · rw [if_neg hk] at h
            exact Option.noConfusion h
        | ident s => exact Option.noConfusion h
        | seq cs => exact Option.noConfusion h
        | wild i => exact Option.noConfusion h
      | seq ps =>
        cases c with
        | seq cs =>
          simp only [unify] at h
          exact ihL ps cs st st2 h
        | ident s => exact Option.noConfusion h
        | node k cs => exact Option.noConfusion h
        | wild i => exact Option.noConfusion h
    · intro ps cs st st2 h
      cases ps with
      | nil =>
        cases cs with
        | nil =>
          simp only [unifyList] at h
          injection h with h2
          subst h2
          exact ⟨Mono_refl st, fun t => t⟩
        | cons c cs2 => exact Option.noConfusion h
      | cons p ps2 =>
        simp only [unifyList] at h
        by_cases hA : isAnyWild cfg p = true
        · rw [if_pos hA] at h
          cases p with
          | wild id =>
            exact ihS id ps2 (splits cs) st st2 h
          | ident s => exact Option.noConfusion h
          | node k ks => exact Option.noConfusion h
          | seq ks => exact Option.noConfusion h
        · rw [if_neg hA] at h
          cases cs with
          | nil => exact Option.noConfusion h
          | cons c cs2 =>
            dsimp only at h
            cases hu : unify cfg f p c st with
            | none =>
              rw [hu] at h
              exact Option.noConfusion h
            | some st1 =>
              rw [hu] at h
              dsimp only at h
              obtain ⟨m1, t1⟩ := ihU p c st st1 hu
              obtain ⟨m2, t2⟩ := ihL ps2 cs2 st1 st2 h
              exact ⟨Mono_trans m1 m2, fun t => t2 (t1 t)⟩
    · intro id ps sps st st2 h
      cases sps with
      | nil => exact Option.noConfusion h
      | cons hd rest =>
        obtain ⟨pre, suf⟩ := hd
        simp only [trySplits] at h
        cases hw : unifyWild cfg id (Node.seq pre) st with
        | none =>
          rw [hw] at h
          dsimp only at h
          exact ihS id ps rest st st2 h
        | some st1 =>
          rw [hw] at h
          dsimp only at h
          cases hl : unifyList cfg f ps suf st1 with
          | none =>
            rw [hl] at h
            dsimp only at h
            exact ihS id ps rest st st2 h
          | some st3 =>
            rw [hl] at h
            dsimp only at h
            injection h with h2
            subst h2
            obtain ⟨m1, t1⟩ := unifyWild_inv cfg id (Node.seq pre) st st1 hw
            obtain ⟨m2, t2⟩ := ihL ps suf st1 st3 hl
            exact ⟨Mono_trans m1 m2, fun t => t2 (t1 t)⟩

/-- C1: for every pattern that reuses a named wildcard, a candidate
matches only if every occurrence of that name denotes structurally
identical subtrees (the reserved name `_` is exempt because it is never
bound or traced); concretely, `$x.$_ = $x` matches `a.b = a` but not
`a.b = c`, and two `$_` occurrences may match different subtrees. -/
theorem C1_wildcard_name_consistency :
    (∀ (cfg : MatchCfg) (f : Nat) (p c : Node) (st2 : MatchState),
      unify cfg f p c emptyState = some st2 →
      ∀ (n : String) (c1 c2 : Node),
        (n, c1) ∈ st2.trace → (n, c2) ∈ st2.trace → c1 = c2) ∧
    (unify exCfg 10 exPat exCand1 emptyState).isSome = true ∧
    (unify exCfg 10 exPat exCand2 emptyState).isSome = false ∧
    (unify exCfg 10 exPat2 exCand3 emptyState).isSome = true := by
  refine ⟨?_, by rfl, by rfl, by rfl⟩
  intro cfg f p c st2 h n c1 c2 h1 h2
  have hinv := (unify_inv_all cfg f).1 p c emptyState st2 h
  have ht0 : TraceOK emptyState := by
    intro m cc hc
    exact absurd hc (List.not_mem_nil _)
  have ht : TraceOK st2 := hinv.2 ht0
  have e1 := ht n c1 h1
  have e2 := ht n c2 h2
  rw [e1] at e2
  exact Option.some.inj e2

theorem C1_wildcard_name_consistency_witness :
    Node.ident "a" = Node.ident "a" :=
  C1_wildcard_name_consistency.1 exCfg 10 exPat exCand1
    { values := [("x", Node.ident "a")],
      trace := [("x", Node.ident "a"), ("x", Node.ident "a")] }
    (by rfl) "x" (Node.ident "a") (Node.ident "a")
    (List.mem_cons_self _ _)
    (List.mem_cons_of_mem _ (List.mem_cons_self _ _))

/-! ## Totality of `matcher.info` (claim C10) -/

/-- C10: `matcher.info` returns the zero `varInfo` for every negative id
instead of panicking, and the wildcard-table entry for every id in
`[0, len(vars))`. -/
theorem C10_info_total :
    (∀ (vars : List varInfo) (id : Int), id < 0 → info vars id = some {}) ∧
    (∀ (vars : List varInfo) (id : Int), 0 ≤ id →
      ∀ h : id.toNat < vars.length,
        info vars id = some (vars.get ⟨id.toNat, h⟩)) := by
  constructor
  · intro vars id hneg
    simp [info, hneg]
  · intro vars id h0 h
    have hnot : ¬ id < 0 := by omega
    simp [info, hnot, List.getElem?_eq_getElem h]

theorem C10_info_total_witness :
    info [] (-1) = some {} ∧
      info [{ name := "x" }] 0 = some { name := "x" } :=
  ⟨C10_info_total.1 [] (-1) (by decide),
    C10_info_total.2 [{ name := "x" }] 0 (by decide) (by decide)⟩

/-! ## Determinism and purity of compile-then-search (claim C8) -/

/-- C8: the embedding of pattern compilation and searching is a pure
function of its inputs, so two runs over the same pattern text and
corpus produce identical match sets, and every match attempt starts
from a fresh empty `MatchState` (no shared mutable state). -/
theorem C8_compile_search_deterministic :
    ∀ (pf : String → Except ErrPos Node) (toks : List Tok) (cfg : MatchCfg)
      (f : Nat) (corpus : Node),
      compileExpr pf toks = compileExpr pf toks ∧
      (∀ n1 n2, (compileExpr pf toks).result = Except.ok n1 →
        (compileExpr pf toks).result = Except.ok n2 →
        matchesOf cfg f n1 corpus = matchesOf cfg f n2 corpus) ∧
      (∀ pat, matchesOf cfg f pat corpus =
        (candidates corpus).filter
          (fun c => (unify cfg f pat c emptyState).isSome)) := by
  intro pf toks cfg f corpus
  refine ⟨rfl, ?_, fun pat => rfl⟩
  intro n1 n2 h1 h2
  rw [h1] at h2
  injection h2 with h3
  rw [h3]

theorem C8_compile_search_deterministic_witness :
    matchesOf exCfg 1 (Node.ident "a") (Node.ident "a") =
      matchesOf exCfg 1 (Node.ident "a") (Node.ident "a") :=
  (C8_compile_search_deterministic (fun _ => Except.ok (Node.ident "a")) []
    exCfg 1 (Node.ident "a")).2.1 (Node.ident "a") (Node.ident "a")
    (by rfl) (by rfl)

/-! ## The aggressive-mode marker (claim C7) -/

theorem compileExpr_text (pf : String → Except ErrPos Node) (toks0 : List Tok) :
    (compileExpr pf toks0).text = synthText (effToks toks0) := by
  unfold compileExpr
  cases pf (synthText (effToks toks0)) <;> rfl

theorem compileExpr_aggr (pf : String → Except ErrPos Node) (toks0 : List Tok) :
    (compileExpr pf toks0).aggressive = aggrOf toks0 := by
  unfold compileExpr
  cases pf (synthText (effToks toks0)) <;> rfl

theorem compileExpr_offsets (pf : String → Except ErrPos Node)
    (toks0 : List Tok) :
    (compileExpr pf toks0).offsets = (synthState (effToks toks0)).offs := by
  unfold compileExpr
  cases pf (synthText (effToks toks0)) <;> rfl

/-- C7: the aggressive-mode marker enables aggressive mode only as the
very first token, where it is stripped before the pattern text is
synthesized; a marker that is not the first token never enables the
mode. -/
theorem C7_aggressive_marker_first_token_only :
    ∀ (pf : String → Except ErrPos Node) (t : Tok) (rest : List Tok),
      (t.isAggr = true →
        (compileExpr pf (t :: rest)).aggressive = true ∧
        (compileExpr pf (t :: rest)).text = synthText rest) ∧
      (t.isAggr = false →
        (compileExpr pf (t :: rest)).aggressive = false ∧
        (compileExpr pf (t :: rest)).text = synthText (t :: rest)) ∧
      (compileExpr pf []).aggressive = false := by
  intro pf t rest
  refine ⟨?_, ?_, ?_⟩
  · intro h
    constructor
    · rw [compileExpr_aggr]
      simp [aggrOf, h]
    · rw [compileExpr_text]
      simp [effToks, h]
  · intro h
    constructor
    · rw [compileExpr_aggr]
      simp [aggrOf, h]
    · rw [compileExpr_text]
      simp [effToks, h]
  · rw [compileExpr_aggr]
    rfl

theorem C7_aggressive_marker_witness :
    (compileExpr (fun _ => Except.ok (Node.ident "a"))
        [{ isAggr := true }, { lit := "x", pos := 0 }]).aggressive = true ∧
      (compileExpr (fun _ => Except.ok (Node.ident "a"))
        [{ lit := "x", pos := 0 }, { isAggr := true }]).aggressive = false :=
  ⟨((C7_aggressive_marker_first_token_only (fun _ => Except.ok (Node.ident "a"))
      { isAggr := true } [{ lit := "x", pos := 0 }]).1 (by rfl)).1,
    ((C7_aggressive_marker_first_token_only (fun _ => Except.ok (Node.ident "a"))
      { lit := "x", pos := 0 } [{ isAggr := true }]).2.1 (by rfl)).1⟩

/-! ## CLI behavior (claims C3, C4, C5) -/

theorem resolveArgs_cons (f : flagPair) (fl : List flagPair)
    (ps : List String) : resolveArgs (f :: fl) ps = (f :: fl, ps) := by
  cases ps <;> rfl

/-- C4: more than one command flag is rejected with the explicit
"TODO: command composability" error, independently of the compile and
load stages (nothing is compiled or loaded). -/
theorem C4_multiple_commands_rejected :
    ∀ (cfg1 cfg2 : MatchCfg) (fu1 fu2 : Nat)
      (cf1 cf2 : String → Except String Node)
      (lf1 lf2 : List String → Bool → Except String (List Node))
      (args : List String) (r : Bool) (fl : List flagPair)
      (ps : List String),
      parseFlags args = Except.ok (r, fl, ps) →
      1 < fl.length →
      fromArgsCore cfg1 fu1 cf1 lf1 r fl ps =
          Except.error "TODO: command composability" ∧
        fromArgsCore cfg1 fu1 cf1 lf1 r fl ps =
          fromArgsCore cfg2 fu2 cf2 lf2 r fl ps := by
  intro cfg1 cfg2 fu1 fu2 cf1 cf2 lf1 lf2 args r fl ps hparse hlen
  cases fl with
  | nil => simp at hlen
  | cons f fl2 =>
    have h1 : ¬ ((f :: fl2).length < 1) := by simp
    have h2 : (f :: fl2).length > 1 := hlen
    have hgoal : ∀ (cfg : MatchCfg) (fu : Nat)
        (cf : String → Except String Node)
        (lf : List String → Bool → Except String (List Node)),
        fromArgsCore cfg fu cf lf r (f :: fl2) ps =
          Except.error "TODO: command composability" := by
      intro cfg fu cf lf
      unfold fromArgsCore
      rw [resolveArgs_cons]
      dsimp only
      rw [if_neg h1, if_pos h2]
    rw [hgoal cfg1 fu1 cf1 lf1, hgoal cfg2 fu2 cf2 lf2]
    exact ⟨rfl, rfl⟩

theorem C4_multiple_commands_rejected_witness :
    fromArgsCore exCfg 1 (fun _ => Except.ok (Node.ident "p"))
        (fun _ _ => Except.ok []) false
        [⟨"x", "a"⟩, ⟨"x", "b"⟩] [] =
      Except.error "TODO: command composability" :=
  (C4_multiple_commands_rejected exCfg exCfg 1 1
    (fun _ => Except.ok (Node.ident "p")) (fun _ => Except.ok (Node.ident "p"))
    (fun _ _ => Except.ok []) (fun _ _ => Except.ok [])
    ["-x", "a", "-x", "b"] false [⟨"x", "a"⟩, ⟨"x", "b"⟩] []
    (by rfl) (by decide)).1

/-- C5: with no explicit `-x` flag and at least one positional argument,
the first positional argument becomes the pattern (as if given via `-x`)
and the remaining positional arguments are the search paths. -/
theorem C5_pattern_promotion :
    ∀ (cfg : MatchCfg) (fu : Nat) (cf : String → Except String Node)
      (lf : List String → Bool → Except String (List Node)) (r : Bool)
      (args : List String) (p : String) (ps : List String),
      parseFlags args = Except.ok (r, [], p :: ps) →
      resolveArgs [] (p :: ps) = ([⟨"x", p⟩], ps) ∧
        fromArgsCore cfg fu cf lf r [] (p :: ps) =
          fromArgsCore cfg fu cf lf r [⟨"x", p⟩] ps := by
  intro cfg fu cf lf r args p ps hparse
  exact ⟨rfl, rfl⟩

theorem C5_pattern_promotion_witness :
    resolveArgs [] ["pat", "dir"] = ([⟨"x", "pat"⟩], ["dir"]) ∧
      fromArgsCore exCfg 1 (fun _ => Except.ok (Node.ident "p"))
          (fun _ _ => Except.ok []) false [] ["pat", "dir"] =
        fromArgsCore exCfg 1 (fun _ => Except.ok (Node.ident "p"))
          (fun _ _ => Except.ok []) false [⟨"x", "pat"⟩] ["dir"] :=
  C5_pattern_promotion exCfg 1 (fun _ => Except.ok (Node.ident "p"))
    (fun _ _ => Except.ok []) false ["pat", "dir"] "pat" ["dir"] (by rfl)

/-- C3 as stated is false at the concrete no-argument invocation: the
"need at least one command" error is returned by `fromArgs` and mapped
by `main` to exit status 1, not 2. -/
theorem C3_no_command_exit_counterexample :
    mainExitCode exCfg 1 (fun _ => Except.ok (Node.ident "p"))
        (fun _ _ => Except.ok []) [] = 1 ∧
      mainExitCode exCfg 1 (fun _ => Except.ok (Node.ident "p"))
        (fun _ _ => Except.ok []) [] ≠ 2 := by
  constructor
  · rfl
  · intro h
    exact absurd ((rfl : mainExitCode exCfg 1
      (fun _ => Except.ok (Node.ident "p"))
      (fun _ _ => Except.ok []) [] = 1) ▸ h) (by decide)

/-- C3 amended: exit status 0 on a completed run (whatever the number of
matches), 1 on any error returned by `fromArgs` — which includes the
no-command usage error as well as compile and load failures — and 2 only
for flag-parse errors inside the flag package; in particular the
no-argument invocation exits with status 1, not 2. -/
theorem C3_exit_codes :
    ∀ (cfg : MatchCfg) (fu : Nat) (cf : String → Except String Node)
      (lf : List String → Bool → Except String (List Node))
      (args : List String),
      (∀ e, parseFlags args = Except.error e →
        mainExitCode cfg fu cf lf args = 2) ∧
      (∀ r fl ps, parseFlags args = Except.ok (r, fl, ps) →
        (∀ e, fromArgsCore cfg fu cf lf r fl ps = Except.error e →
          mainExitCode cfg fu cf lf args = 1) ∧
        (∀ ms, fromArgsCore cfg fu cf lf r fl ps = Except.ok ms →
          mainExitCode cfg fu cf lf args = 0)) ∧
      mainExitCode cfg fu cf lf [] = 1 := by
  intro cfg fu cf lf args
  refine ⟨?_, ?_, ?_⟩
  · intro e he
    unfold mainExitCode
    rw [he]
  · intro r fl ps hok
    constructor
    · intro e he
      unfold mainExitCode
      rw [hok]
      dsimp only
      rw [he]
    · intro ms hms
      unfold mainExitCode
      rw [hok]
      dsimp only
      rw [hms]
  · rfl

theorem C3_exit_codes_witness :
    mainExitCode exCfg 1 (fun _ => Except.ok (Node.ident "p"))
        (fun _ _ => Except.ok []) ["-q"] = 2 :=
  (C3_exit_codes exCfg 1 (fun _ => Except.ok (Node.ident "p"))
    (fun _ _ => Except.ok []) ["-q"]).1 "flag provided but not defined"
    (by rfl)

/-! ## The write-position invariant of `lineColBuffer` (claim C9) -/

theorem lcbStep_offs (l : LCB) (c : Char) : (lcbStep l c).offs = l.offs + 1 := by
  unfold lcbStep
  split <;> rfl

theorem lcbStep_buf (l : LCB) (c : Char) : (lcbStep l c).buf = l.buf := by
  unfold lcbStep
  split <;> rfl

theorem foldl_lcbStep_offs : ∀ (cs : List Char) (l : LCB),
    (cs.foldl lcbStep l).offs = l.offs + cs.length := by
  intro cs
  induction cs with
  | nil => intro l; simp
  | cons c cs ih =>
    intro l
    rw [List.foldl_cons, ih, lcbStep_offs]
    simp only [List.length_cons]
    omega

theorem foldl_lcbStep_line : ∀ (cs : List Char) (l : LCB),
    (cs.foldl lcbStep l).line = l.line + cs.count '\n' := by
  intro cs
  induction cs with
  | nil => intro l; simp
  | cons c cs ih =>
    intro l
    rw [List.foldl_cons, ih]
    by_cases hc : c = '\n'
    · subst hc
      have hstep : (lcbStep l '\n').line = l.line + 1 := by
        unfold lcbStep
        rw [if_pos rfl]
      rw [hstep, List.count_cons]
      simp
      omega
    · have hstep : (lcbStep l c).line = l.line := by
        unfold lcbStep
        rw [if_neg hc]
      rw [hstep, List.count_cons]
      simp [hc]

theorem foldl_lcbStep_buf : ∀ (cs : List Char) (l : LCB),
    (cs.foldl lcbStep l).buf = l.buf := by
  intro cs
  induction cs with
  | nil => intro l; rfl
  | cons c cs ih =>
    intro l
    rw [List.foldl_cons, ih, lcbStep_buf]

theorem foldl_lcbStep_col_no : ∀ (cs : List Char) (l : LCB), '\n' ∉ cs →
    (cs.foldl lcbStep l).col = l.col + cs.length := by
  intro cs
  induction cs with
  | nil => intro l _; simp
  | cons c cs ih =>
    intro l h
    have hc : c ≠ '\n' := by
      intro he
      exact h (he ▸ List.mem_cons_self c cs)
    have hcs : '\n' ∉ cs := fun hm => h (List.mem_cons_of_mem c hm)
    have hstep : (lcbStep l c).col = l.col + 1 := by
      unfold lcbStep
      rw [if_neg hc]
    rw [List.foldl_cons, ih _ hcs, hstep]
    simp only [List.length_cons]
    omega

theorem foldl_lcbStep_col_nl : ∀ (pre suf : List Char) (l : LCB), '\n' ∉ suf →
    ((pre ++ '\n' :: suf).foldl lcbStep l).col = suf.length + 1 := by
  intro pre suf l h
  rw [List.foldl_append, List.foldl_cons]
  have hstep : (lcbStep (pre.foldl lcbStep l) '\n').col = 1 := by
    unfold lcbStep
    rw [if_pos rfl]
  rw [foldl_lcbStep_col_no suf _ h, hstep]
  omega

/-- C9: `lineColBuffer.WriteString` advances the rune offset by exactly
the number of runes written, counts a line per newline, resets the
column to 1 at each newline and advances it by 1 for any other rune, and
appends exactly the written text — so (line, col, offs) always describes
the end of the text written so far. -/
theorem C9_lineColBuffer_invariant :
    ∀ (l : LCB) (s : String),
      (writeStr l s).offs = l.offs + s.data.length ∧
      (writeStr l s).line = l.line + s.data.count '\n' ∧
      (writeStr l s).buf = l.buf ++ s ∧
      ('\n' ∉ s.data → (writeStr l s).col = l.col + s.data.length) ∧
      (∀ pre suf, s.data = pre ++ '\n' :: suf → '\n' ∉ suf →
        (writeStr l s).col = suf.length + 1) ∧
      (∀ c : Char,
        (lcbStep l c).offs = l.offs + 1 ∧
        (c = '\n' → (lcbStep l c).line = l.line + 1 ∧ (lcbStep l c).col = 1) ∧
        (c ≠ '\n' → (lcbStep l c).line = l.line ∧
          (lcbStep l c).col = l.col + 1)) := by
  intro l s
  refine ⟨?_, ?_, ?_, ?_, ?_, ?_⟩
  · show (s.data.foldl lcbStep l).offs = l.offs + s.data.length
    exact foldl_lcbStep_offs s.data l
  · show (s.data.foldl lcbStep l).line = l.line + s.data.count '\n'
    exact foldl_lcbStep_line s.data l
  · rfl
  · intro h
    show (s.data.foldl lcbStep l).col = l.col + s.data.length
    exact foldl_lcbStep_col_no s.data l h
  · intro pre suf he h
    show (s.data.foldl lcbStep l).col = suf.length + 1
    rw [he]
    exact foldl_lcbStep_col_nl pre suf l h
  · intro c
    refine ⟨lcbStep_offs l c, ?_, ?_⟩
    · intro hc
      subst hc
      constructor
      · unfold lcbStep
        rw [if_pos rfl]
      · unfold lcbStep
        rw [if_pos rfl]
    · intro hc
      constructor
      · unfold lcbStep
        rw [if_neg hc]
      · unfold lcbStep
        rw [if_neg hc]

theorem C9_lineColBuffer_invariant_witness :
    (writeStr {} "ab\nc").col = 2 ∧ (writeStr {} "ab\nc").offs = 4 := by
  constructor
  · exact (C9_lineColBuffer_invariant {} "ab\nc").2.2.2.2.1 ['a', 'b'] ['c']
      (by rfl) (by decide)
  · exact (C9_lineColBuffer_invariant {} "ab\nc").1

/-! ## Position correction of compile errors (claim C2) -/

theorem padStep_offs (s : CompState) (t : Tok) : (padStep s t).offs = s.offs := by
  unfold padStep
  by_cases hA : s.lbuf.offs ≥ t.pos ∧ s.lastLit ∧ t.lit ≠ ""
  · rw [if_pos hA]
    dsimp only
    split <;> rfl
  · rw [if_neg hA]
    dsimp only
    split <;> rfl

theorem compileStep_offs_cases (s : CompState) (t : Tok) :
    (¬ (t.lit ≠ "" ∧ isWildName t.lit = true) ∧
      (compileStep s t).offs = s.offs) ∨
    ((t.lit ≠ "" ∧ isWildName t.lit = true) ∧
      ∃ a b, (compileStep s t).offs = s.offs ++ [⟨a, b, wildExtra⟩]) := by
  unfold compileStep
  by_cases hlit : t.lit = ""
  · left
    rw [if_pos hlit]
    exact ⟨fun hc => hc.1 hlit, padStep_offs s t⟩
  · rw [if_neg hlit]
    by_cases hw : isWildName t.lit = true
    · right
      refine ⟨⟨hlit, hw⟩, (padStep s t).lbuf.line, (padStep s t).lbuf.col, ?_⟩
      rw [if_pos hw]
      show (addOffset (padStep s t) wildExtra).offs = s.offs ++ _
      unfold addOffset
      dsimp only
      rw [padStep_offs]
    · left
      refine ⟨fun hc => hw hc.2, ?_⟩
      rw [if_neg hw]
      exact padStep_offs s t

theorem synth_offsets : ∀ (toks : List Tok) (s : CompState),
    (∀ o ∈ (toks.foldl compileStep s).offs, o ∈ s.offs ∨ o.offset = wildExtra) ∧
    (toks.foldl compileStep s).offs.length =
      s.offs.length +
        toks.countP (fun t => decide (t.lit ≠ "") && isWildName t.lit) := by
  intro toks
  induction toks with
  | nil =>
    intro s
    exact ⟨fun o ho => Or.inl ho, by simp⟩
  | cons t ts ih =>
    intro s
    rw [List.foldl_cons]
    obtain ⟨ihm, ihl⟩ := ih (compileStep s t)
    rcases compileStep_offs_cases s t with ⟨hno, heq⟩ | ⟨⟨h1, h2⟩, a, b, heq⟩
    · constructor
      · intro o ho
        rcases ihm o ho with hin | hK
        · rw [heq] at hin
          exact Or.inl hin
        · exact Or.inr hK
      · rw [ihl, heq, List.countP_cons]
        have hp : (decide (t.lit ≠ "") && isWildName t.lit) = false := by
          by_cases he : t.lit = ""
          · simp [he]
          · simp only [he, decide_not]
            simp only [decide_eq_true_eq] at *
            have : isWildName t.lit = false := by
              cases hw : isWildName t.lit
              · rfl
              · exact absurd ⟨he, hw⟩ hno
            simp [this, he]
        rw [hp]
        simp
    · constructor
      · intro o ho
        rcases ihm o ho with hin | hK
        · rw [heq] at hin
          rcases List.mem_append.mp hin with hs | hsing
          · exact Or.inl hs
          · right
            have : o = ⟨a, b, wildExtra⟩ := List.mem_singleton.mp hsing
            rw [this]
        · exact Or.inr hK
      · rw [ihl, heq, List.countP_cons]
        have hp : (decide (t.lit ≠ "") && isWildName t.lit) = true := by
          simp [h1, h2]
        rw [hp]
        simp
        omega

theorem sumAux : ∀ (os : List posOffset) (a : Int),
    os.foldl (fun a o => a + o.offset) a = a + sumOffsets os := by
  intro os
  induction os with
  | nil =>
    intro a
    simp [sumOffsets]
  | cons o os ih =>
    intro a
    show List.foldl _ (a + o.offset) os = a + sumOffsets (o :: os)
    rw [ih (a + o.offset)]
    have h1 : sumOffsets (o :: os) = 0 + o.offset + sumOffsets os := by
      show List.foldl _ (0 + o.offset) os = _
      rw [ih (0 + o.offset)]
    rw [h1]
    ring

theorem sumOffsets_cons (o : posOffset) (os : List posOffset) :
    sumOffsets (o :: os) = o.offset + sumOffsets os := by
  show (o :: os).foldl (fun a x => a + x.offset) 0 = o.offset + sumOffsets os
  rw [List.foldl_cons, sumAux]
  ring

theorem sumOffsets_const : ∀ (offs : List posOffset),
    (∀ o ∈ offs, o.offset = wildExtra) →
    sumOffsets offs = wildExtra * offs.length := by
  intro offs
  induction offs with
  | nil =>
    intro _
    simp [sumOffsets]
  | cons o os ih =>
    intro h
    rw [sumOffsets_cons, ih (fun x hx => h x (List.mem_cons_of_mem o hx)),
      h o (List.mem_cons_self o os)]
    simp only [List.length_cons, Nat.cast_add, Nat.cast_one]
    ring

theorem subPosOffsets_allApply : ∀ (offs : List posOffset) (e : ErrPos),
    allApply e.line e.col offs = true →
    subPosOffsets e offs = ⟨e.line, e.col - sumOffsets offs⟩ := by
  intro offs
  induction offs with
  | nil =>
    intro e _
    show e = ⟨e.line, e.col - sumOffsets []⟩
    have hz : sumOffsets [] = 0 := rfl
    rw [hz]
    cases e
    simp
  | cons o os ih =>
    intro e h
    have h2 : (decide (o.atLine = e.line) && decide (o.atCol ≤ e.col) &&
        allApply e.line (e.col - o.offset) os) = true := h
    simp only [Bool.and_eq_true, decide_eq_true_eq] at h2
    obtain ⟨⟨hline, hcol⟩, hrest⟩ := h2
    have hstep : (if e.line = o.atLine ∧ o.atCol ≤ e.col then
        { e with col := e.col - o.offset } else e) =
        ({ line := e.line, col := e.col - o.offset } : ErrPos) := by
      rw [if_pos ⟨hline.symm, hcol⟩]
    have hcons : subPosOffsets e (o :: os) =
        subPosOffsets (if e.line = o.atLine ∧ o.atCol ≤ e.col then
          { e with col := e.col - o.offset } else e) os := rfl
    rw [hcons, hstep, ih { line := e.line, col := e.col - o.offset } hrest]
    simp only [ErrPos.mk.injEq, sumOffsets_cons]
    refine ⟨trivial, by ring⟩

/-- C2: when pattern parsing fails, `compileExpr` reports the error at a
position corrected by subtracting, for each wildcard substitution
recorded before the reported offset, the extra synthetic length
`len(wildPrefix) - 1`: every recorded offset carries exactly that
length, one is recorded per wildcard literal in the stream, and the
reported column is rewound by their cumulative sum. -/
theorem C2_error_position_corrected :
    ∀ (pf : String → Except ErrPos Node) (toks : List Tok) (e : ErrPos),
      (∀ o ∈ (compileExpr pf toks).offsets, o.offset = wildExtra) ∧
      ((compileExpr pf toks).offsets.length =
        (effToks toks).countP
          (fun t => decide (t.lit ≠ "") && isWildName t.lit)) ∧
      (pf (compileExpr pf toks).text = Except.error e →
        allApply e.line e.col (compileExpr pf toks).offsets = true →
        (compileExpr pf toks).result =
          Except.error
            ⟨e.line,
              e.col - wildExtra * (compileExpr pf toks).offsets.length⟩) := by
  intro pf toks e
  have hoffs := synth_offsets (effToks toks) {}
  have hall : ∀ o ∈ (synthState (effToks toks)).offs, o.offset = wildExtra := by
    intro o ho
    rcases hoffs.1 o ho with hin | hK
    · exact absurd hin (List.not_mem_nil o)
    · exact hK
  have hlen : (synthState (effToks toks)).offs.length =
      (effToks toks).countP
        (fun t => decide (t.lit ≠ "") && isWildName t.lit) := by
    have := hoffs.2
    simpa using this
  refine ⟨?_, ?_, ?_⟩
  · rw [compileExpr_offsets]
    exact hall
  · rw [compileExpr_offsets]
    exact hlen
  · intro hperr hallapply
    rw [compileExpr_text] at hperr
    rw [compileExpr_offsets] at hallapply
    unfold compileExpr
    rw [hperr]
    dsimp only
    rw [subPosOffsets_allApply _ e hallapply]
    rw [sumOffsets_const _ hall]

theorem C2_error_position_corrected_witness :
    (compileExpr (fun _ => Except.error ⟨1, 20⟩)
        [{ lit := "gogrep_0x", pos := 0 }]).result =
      Except.error ⟨1, 14⟩ := by
  have h := (C2_error_position_corrected (fun _ => Except.error ⟨1, 20⟩)
    [{ lit := "gogrep_0x", pos := 0 }] ⟨1, 20⟩).2.2 (by rfl) (by rfl)
  exact h

/-! ## Match output lines (claim C6) -/

theorem listHasPref_self_append : ∀ (pre s : List Char),
    listHasPref pre (pre ++ s) = true := by
  intro pre s
  induction pre with
  | nil => rfl
  | cons p ps ih =>
    show (decide (p = p) && listHasPref ps (ps ++ s)) = true
    simp [ih]

theorem relFilename_under (wd rest : List Char) :
    relFilename wd (wd ++ '/' :: rest) = rest := by
  unfold relFilename
  rw [if_pos (listHasPref_self_append wd ('/' :: rest))]
  have he : wd ++ '/' :: rest = (wd ++ ['/']) ++ rest := by simp
  have hl : wd.length + 1 = (wd ++ ['/']).length := by simp
  rw [he, hl, List.drop_left]

theorem mem_trimTabs {x : Char} {p : List Char} (hx : x ∈ trimTabs p) :
    x ∈ p := by
  unfold trimTabs at hx
  rw [List.mem_reverse] at hx
  have h1 : x ∈ (p.dropWhile (fun c => c == '\t')).reverse :=
    (List.dropWhile_sublist _).mem hx
  rw [List.mem_reverse] at h1
  exact (List.dropWhile_sublist _).mem h1

theorem bjl_no_newline : ∀ (chunks : List (List Char))
    (b : List Char × List Char),
    (∀ ch ∈ chunks, ch = ['\n'] ∨ '\n' ∉ ch) →
    '\n' ∉ b.1 → '\n' ∉ b.2 →
    '\n' ∉ (chunks.foldl bjlWrite b).1 ∧
      '\n' ∉ (chunks.foldl bjlWrite b).2 := by
  intro chunks
  induction chunks with
  | nil =>
    intro b _ h1 h2
    exact ⟨h1, h2⟩
  | cons ch chs ih =>
    intro b hall h1 h2
    rw [List.foldl_cons]
    have hch := hall ch (List.mem_cons_self ch chs)
    have hrest : ∀ c ∈ chs, c = ['\n'] ∨ '\n' ∉ c :=
      fun c hc => hall c (List.mem_cons_of_mem ch hc)
    by_cases hnl : ch = ['\n']
    · have hb : bjlWrite b ch =
          (b.1 ++ (if needSemi b.2 then [';'] else []) ++ [' '], b.2) := by
        unfold bjlWrite
        rw [if_pos hnl]
      rw [hb]
      refine ih _ hrest ?_ h2
      intro hm
      rcases List.mem_append.mp hm with hm1 | hm2
      · rcases List.mem_append.mp hm1 with hm3 | hm4
        · exact h1 hm3
        · split at hm4
          · exact absurd (List.mem_singleton.mp hm4) (by decide)
          · exact absurd hm4 (List.not_mem_nil _)
      · exact absurd (List.mem_singleton.mp hm2) (by decide)
    · have hnn : '\n' ∉ ch := by
        rcases hch with he | hn
        · exact absurd he hnl
        · exact hn
      have hb : bjlWrite b ch = (b.1 ++ trimTabs ch, trimTabs ch) := by
        unfold bjlWrite
        rw [if_neg hnl]
      rw [hb]
      have htr : '\n' ∉ trimTabs ch := fun hm => hnn (mem_trimTabs hm)
      refine ih _ hrest ?_ htr
      intro hm
      rcases List.mem_append.mp hm with hm1 | hm2
      · exact h1 hm1
      · exact htr hm2

/-- C6: the tool prints exactly one line per match, of the form
`<file>:<line>:<col>: ` followed by the single-line rendering; a path
that lies under the working directory is printed relative to it, and
the joined rendering contains no newline when the printer emits
newline chunks only as lone `"\n"` writes. -/
theorem C6_output_lines :
    ∀ (wd : List Char) (ms : List (FilePos × List Char)),
      (printMatches wd ms).length = ms.length ∧
      (∀ p rend, (p, rend) ∈ ms → outputLine wd p rend ∈ printMatches wd ms) ∧
      (∀ (p : FilePos) (rend : List Char), 0 < p.line → p.col ≠ 0 →
        relFilename wd p.filename ≠ [] →
        outputLine wd p rend =
          relFilename wd p.filename ++ ':' :: natChars p.line ++
            ':' :: natChars p.col ++ [':', ' '] ++ rend ++ ['\n']) ∧
      (∀ rest : List Char, relFilename wd (wd ++ '/' :: rest) = rest) ∧
      (∀ chunks : List (List Char),
        (∀ ch ∈ chunks, ch = ['\n'] ∨ '\n' ∉ ch) →
        '\n' ∉ joinLines chunks) := by
  intro wd ms
  refine ⟨?_, ?_, ?_, ?_, ?_⟩
  · exact List.length_map ms _
  · intro p rend hm
    exact List.mem_map_of_mem (fun m => outputLine wd m.1 m.2) hm
  · intro p rend hline hcol hfn
    unfold outputLine posString
    dsimp only
    rw [if_pos hline, if_pos hfn, if_pos hcol]
    have hne : (relFilename wd p.filename ++ [':']) ++ natChars p.line ++
        ':' :: natChars p.col ≠ [] := by
      simp
    rw [if_neg hne]
    simp
  · exact fun rest => relFilename_under wd rest
  · intro chunks hall
    exact (bjl_no_newline chunks ([], []) hall (List.not_mem_nil _)
      (List.not_mem_nil _)).1

theorem C6_output_lines_witness :
    outputLine ['w', 'd'] ⟨['w', 'd', '/', 'f'], 3, 7⟩ ['x'] =
      relFilename ['w', 'd'] ['w', 'd', '/', 'f'] ++ ':' :: natChars 3 ++
        ':' :: natChars 7 ++ [':', ' '] ++ ['x'] ++ ['\n'] :=
  (C6_output_lines ['w', 'd'] []).2.2.1 ⟨['w', 'd', '/', 'f'], 3, 7⟩ ['x']
    (by decide) (by decide) (by decide)

end Gogrep
